import Mathlib

/-!
Verification development for the react-firebase-state entity cache:
a shallow embedding of the Lease/Claim cache-lifecycle engine
(EntityClient, Lease, claimLease, releaseClaim, disownAllLeases,
eviction timers, setEntity, lookupEntityTuple, hashEntityKey) and
proofs about its claims.
-/

namespace RFS

/-- Model of a JavaScript runtime value as stored in the entity cache
(`Entity = unknown` in types.ts).  `undef` is JS `undefined` (the pending
marker when stored under a key), `null` is JS `null` (the removed marker),
`errorObj` is an `Error` instance (`id` distinguishes instances, `msg` is
the message), `obj` is any other plain object reference. -/
inductive JsValue where
  | undef
  | null
  | boolean (b : Bool)
  | num (n : Int)
  | str (s : String)
  | errorObj (id : Nat) (msg : String)
  | obj (id : Nat)
  deriving DecidableEq, Repr

/-- JavaScript truthiness of a value (used by `if (oldCache[entityKey])`
and by the `||` chains in the source).  `undefined`, `null`, `false`,
`0` and the empty string are falsy; objects (including `Error`s) are truthy. -/
def JsValue.truthy : JsValue → Bool
  | .undef => false
  | .null => false
  | .boolean b => b
  | .num n => n != 0
  | .str s => s != ""
  | .errorObj _ _ => true
  | .obj _ => true

/-- The cache (`Cache = Record<string, Entity>` in types.ts): a mapping from
hash-value strings to entities.  `none` means the key is absent
(`!cache.hasOwnProperty(key)`); `some .undef` means the key is present with
the `undefined` pending marker. -/
abbrev Cache := String → Option JsValue

/-- `EntityStatus` from types.ts. -/
inductive EntityStatus where
  | idle
  | pending
  | success
  | removed
  | error
  deriving DecidableEq, Repr

/-- `EntityTuple` from types.ts: `[value, error, status]`.  Slots that are
`undefined` in the source tuples are `JsValue.undef` here. -/
structure EntityTuple where
  value : JsValue
  error : JsValue
  status : EntityStatus
  deriving DecidableEq, Repr

/-- `lookupEntityTuple` from common.ts (the variant whose tuples are
`[value, error, status]` and which has the `removed` case): the cascade of
guarded alternatives
`value===undefined && (key===null || !hasOwnProperty) -> idle`,
`value===undefined -> pending`, `value instanceof Error -> error`,
`value===null -> removed`, otherwise `success`. -/
def lookupEntityTuple (cache : Cache) (key : Option String) : EntityTuple :=
  match key with
  | none => ⟨.undef, .undef, .idle⟩
  | some k =>
    match cache k with
    | none => ⟨.undef, .undef, .idle⟩
    | some .undef => ⟨.undef, .undef, .pending⟩
    | some (.errorObj i m) => ⟨.undef, .errorObj i m, .error⟩
    | some .null => ⟨.null, .undef, .removed⟩
    | some v => ⟨v, .undef, .success⟩

/-- Whether a value is an `Error` instance (`value instanceof Error`). -/
def isErrorValue : JsValue → Bool
  | .errorObj _ _ => true
  | _ => false

/-- Modelled from the spec, section 4.5: the status projection
`project(cache, key)`, written directly as the spec's priority-ordered
rules: 1. key null or absent from cache: idle; 2. pending marker: pending;
3. error value: error with that error; 4. removed marker (null): removed;
5. otherwise: success with that value. -/
def projectSpec (cache : Cache) (key : Option String) : EntityTuple :=
  match key with
  | none => ⟨.undef, .undef, .idle⟩
  | some k =>
    match cache k with
    | none => ⟨.undef, .undef, .idle⟩
    | some v =>
      if v = .undef then ⟨.undef, .undef, .pending⟩
      else if isErrorValue v then ⟨.undef, v, .error⟩
      else if v = .null then ⟨.null, .undef, .removed⟩
      else ⟨v, .undef, .success⟩

/-- Model of a JavaScript value usable as a segment of an `EntityKey`
(`EntityKey = readonly unknown[]` in types.ts), with nested structure. -/
inductive KeyPart where
  | undef
  | null
  | boolean (b : Bool)
  | num (n : Int)
  | str (s : String)
  | arr (elems : List KeyPart)
  | obj (fields : List (String × KeyPart))
  deriving Repr

mutual

/-- `isValid` from util.ts: `undefined` is invalid; an object (array or
plain object) is valid iff all of its members are recursively valid
(`for (const key in obj)`); `null` and scalars are valid. -/
def isValid : KeyPart → Bool
  | .undef => false
  | .null => true
  | .boolean _ => true
  | .num _ => true
  | .str _ => true
  | .arr xs => isValidList xs
  | .obj fs => isValidFields fs

def isValidList : List KeyPart → Bool
  | [] => true
  | x :: xs => isValid x && isValidList xs

def isValidFields : List (String × KeyPart) → Bool
  | [] => true
  | f :: fs => isValid f.2 && isValidFields fs

end

mutual

/-- Whether a key part contains the `undefined` sentinel at any depth
(the property quantified over in the claims about invalid keys). -/
def hasUndef : KeyPart → Bool
  | .undef => true
  | .null => false
  | .boolean _ => false
  | .num _ => false
  | .str _ => false
  | .arr xs => hasUndefList xs
  | .obj fs => hasUndefFields fs

def hasUndefList : List KeyPart → Bool
  | [] => false
  | x :: xs => hasUndef x || hasUndefList xs

def hasUndefFields : List (String × KeyPart) → Bool
  | [] => false
  | f :: fs => hasUndef f.2 || hasUndefFields fs

end

/-- `validateKey` from util.ts: return `null` if any top-level segment is
invalid, otherwise return the key itself.  (The `if (!key) return null`
guard for a `null`/`undefined` key argument is unrepresentable here because
a Lean list is never `null`.) -/
def validateKey (key : List KeyPart) : Option (List KeyPart) :=
  if isValidList key then some key else none

/-- Code-unit comparison of two character lists, modelling the default
string comparison used by JavaScript `Array.prototype.sort()`. -/
def charListLe : List Char → List Char → Bool
  | [], _ => true
  | _ :: _, [] => false
  | a :: as, b :: bs =>
    if a.val.toNat < b.val.toNat then true
    else if b.val.toNat < a.val.toNat then false
    else charListLe as bs

/-- String comparison by code units (JS `Object.keys(val).sort()`). -/
def strLe (a b : String) : Bool := charListLe a.data b.data

/-- Escape a character for a JSON string literal (minimal model:
backslash and double quote; other characters are kept as-is). -/
def escapeChar (c : Char) : String :=
  if c = '\\' then "\\\\"
  else if c = '"' then "\\\""
  else String.singleton c

/-- A JSON string literal for `s` (the serialization `JSON.stringify`
applies to string values and to object member names). -/
def jsonQuote (s : String) : String :=
  "\"" ++ String.join (s.data.map escapeChar) ++ "\""

/-- Join already-serialized object members `name: serializedValue` with
commas, in list order. -/
def joinPairs : List (String × String) → String
  | [] => ""
  | [(k, v)] => jsonQuote k ++ ":" ++ v
  | (k, v) :: ps => jsonQuote k ++ ":" ++ v ++ "," ++ joinPairs ps

/-- Sort serialized object members by member name
(`Object.keys(val).sort()`; the comparison looks only at the name). -/
def sortPairs (ps : List (String × String)) : List (String × String) :=
  List.insertionSort (fun a b => strLe a.1 b.1 = true) ps

mutual

/-- `hashEntityKey`'s serialization (util.ts): `JSON.stringify` with a
replacer that rebuilds every plain object with its member names sorted
(`Object.keys(val).sort().reduce(...)`) and maps `undefined` to `null`
(`simpleType`).  The source sorts an object's member names and then
serializes each member; here each member is serialized first and the
(name, serialization) pairs are then sorted by name, which yields the same
string because the sort compares names only. -/
def stringifyKeyPart : KeyPart → String
  | .undef => "null"
  | .null => "null"
  | .boolean b => if b then "true" else "false"
  | .num n => toString n
  | .str s => jsonQuote s
  | .arr xs => "[" ++ stringifyList xs ++ "]"
  | .obj fs => "\x7b" ++ joinPairs (sortPairs (stringifyPairs fs)) ++ "\x7d"

def stringifyList : List KeyPart → String
  | [] => ""
  | [x] => stringifyKeyPart x
  | x :: xs => stringifyKeyPart x ++ "," ++ stringifyList xs

def stringifyPairs : List (String × KeyPart) → List (String × String)
  | [] => []
  | f :: fs => (f.1, stringifyKeyPart f.2) :: stringifyPairs fs

end

/-- `hashEntityKey` from util.ts: canonical JSON serialization of the
entity key (an array of segments). -/
def hashEntityKey (entityKey : List KeyPart) : String :=
  "[" ++ stringifyList entityKey ++ "]"

/-- An entity key argument: either an already-hashed string or a structured
`EntityKey` (`key: string | EntityKey`). -/
abbrev KeyArg := String ⊕ List KeyPart

/-- `toHashValue` from util.ts: a string key is returned as-is; a
structured key is validated and hashed, or `null` when invalid. -/
def toHashValue : KeyArg → Option String
  | .inl s => some s
  | .inr k =>
    match validateKey k with
    | none => none
    | some _ => some (hashEntityKey k)

/-- The `Error` thrown by `setEntity` for an invalid key
(`throw new Error("Invalid key")`). -/
def invalidKeyError : JsValue := .errorObj 0 "Invalid key"

/-- `setEntity` from setEntity.ts (the EntityApi branch): compute the hash
value; if it is falsy (`null` from a failed canonicalization, or the empty
string) throw `Invalid key` before touching the cache; otherwise hand
`client.setCache` a function-of-previous-snapshot updater that sets the
single key (`produce(oldCache, draft => draft[hashValue] = value)`).
The result is the updater passed to `setCache`; an `Except.error` means the
exception propagated and no updater was enqueued. -/
def setEntity (key : KeyArg) (value : JsValue) :
    Except JsValue (Cache → Cache) :=
  match toHashValue key with
  | none => .error invalidKeyError
  | some h =>
    if h = "" then .error invalidKeyError
    else .ok (fun old k => if k = h then some value else old k)

/-- Modelled from the spec, sections 4.2 and 5: the single-writer snapshot
store behind `client.setCache` (React's functional state dispatch, an
external collaborator).  Updaters are functions of the previous snapshot
and are applied sequentially, each one against the latest committed
snapshot, even when one was enqueued during the processing of another. -/
def applyUpdaters (c : Cache) (us : List (Cache → Cache)) : Cache :=
  us.foldl (fun acc u => u acc) c

/-- The `added`/`modified` branch of the `onSnapshot` handler in
`startDocListener` (common.ts): inside `try`, apply the transform (if any)
to the document data and `setEntity` the result; `catch` stores the thrown
value via `setEntity` instead.  An `Except.error` result means an exception
escaped the snapshot handler. -/
def onDocChanged (transform : Option (JsValue → Except JsValue JsValue))
    (hashValue : String) (data : JsValue) :
    Except JsValue (Cache → Cache) :=
  let body :=
    (match transform with
     | some f => f data
     | none => Except.ok data).bind
      (fun finalData => setEntity (Sum.inl hashValue) finalData)
  match body with
  | .ok u => .ok u
  | .error e => setEntity (Sum.inl hashValue) e

/-- `LeaseOptions` from types.ts: `abandonTime?: number` (milliseconds an
abandoned entity may live in the cache).  `none` is an absent property. -/
structure LeaseOptions where
  abandonTime : Option Int := none
  deriving DecidableEq, Repr

/-- `EntityApiOptions extends LeaseOptions` from types.ts (it adds no
members of its own). -/
structure EntityApiOptions where
  abandonTime : Option Int := none
  deriving DecidableEq, Repr

/-- `DEFAULT_ABANDON_TIME` from EntityClient.ts: five minutes. -/
def DEFAULT_ABANDON_TIME : Int := 300000

/-- JS `a || b` where `a` is a number-or-undefined: keep `a` when it is
truthy (present and nonzero), otherwise fall back to `b`. -/
def jsNumOr (a : Option Int) (b : Int) : Int :=
  match a with
  | some t => if t = 0 then b else t
  | none => b

/-- `EntityClient.getAbandonTime`:
`lease.options?.abandonTime || this.options.abandonTime ||
DEFAULT_ABANDON_TIME`. -/
def getAbandonTime (leaseOptions : Option LeaseOptions)
    (clientOptions : EntityApiOptions) : Int :=
  jsNumOr (leaseOptions.bind LeaseOptions.abandonTime)
    (jsNumOr clientOptions.abandonTime DEFAULT_ABANDON_TIME)

/-- The `Lease` class (Lease.ts): the entity key it governs, the ledger of
leasee names (a JS `Set<string>`, modelled as an insertion-ordered
duplicate-free list), the optional upstream unsubscribe handle (an id into
the invocation-count table), the options fixed at construction, and the
optional pending eviction-timer token. -/
structure Lease where
  entityKey : String
  ledger : List String := []
  unsubscribe : Option Nat := none
  options : Option LeaseOptions := none
  evictionToken : Option Nat := none
  deriving DecidableEq, Repr

/-- A scheduled `setTimeout` eviction callback: its token (`id`), the time
at which it fires, and the id of the Lease object the callback captured. -/
structure TimerRec where
  id : Nat
  deadline : Int
  leaseId : Nat
  deriving DecidableEq, Repr

/-- The full mutable state owned by one `EntityClient` plus the ambient
scheduler: the cache, the key-to-Lease map (`leases`), the
leasee-name-to-set-of-Leases index (`leaseeLeases`, holding ids of Lease
objects since JS `Set<Lease>` stores references), the heap of Lease
objects, the pending timers, a fresh-id counter, the per-handle count of
upstream `unsubscribe()` invocations, the clock, and the client options. -/
structure ClientState where
  cache : Cache
  leases : String → Option Nat
  leaseeLeases : String → Option (List Nat)
  heap : Nat → Option Lease
  timers : List TimerRec
  fresh : Nat
  unsubCount : Nat → Nat
  now : Int
  options : EntityApiOptions

/-- Point update of a string-keyed map. -/
def updS {β : Type} (m : String → β) (k : String) (v : β) : String → β :=
  fun x => if x = k then v else m x

/-- Point update of a nat-keyed map. -/
def updN {β : Type} (m : Nat → β) (k : Nat) (v : β) : Nat → β :=
  fun x => if x = k then v else m x

/-- JS `Set.add` on an insertion-ordered list. -/
def setAdd (l : List String) (x : String) : List String :=
  if x ∈ l then l else l ++ [x]

/-- JS `Set.delete` on the ledger. -/
def setDelete (l : List String) (x : String) : List String :=
  l.filter (fun y => y ≠ x)

/-- JS `Set.add` for the leasee index (sets of Lease object ids). -/
def setAddN (l : List Nat) (x : Nat) : List Nat :=
  if x ∈ l then l else l ++ [x]

/-- JS `Set.delete` for the leasee index. -/
def setDeleteN (l : List Nat) (x : Nat) : List Nat :=
  l.filter (fun y => y ≠ x)

/-- `clearTimeout(token)`: discard the pending timer with that token. -/
def clearTimer (s : ClientState) (t : Nat) : ClientState :=
  { s with timers := s.timers.filter (fun r => r.id ≠ t) }

/-- `Lease.addLeasee` on the Lease object `i`: add the leasee to the
ledger; if an eviction timer is pending, clear it and drop the token. -/
def addLeasee (s : ClientState) (i : Nat) (leasee : String) : ClientState :=
  match s.heap i with
  | none => s
  | some L =>
    let s1 := { s with
      heap := updN s.heap i
        (some { L with ledger := setAdd L.ledger leasee, evictionToken := none }) }
    match L.evictionToken with
    | some t => clearTimer s1 t
    | none => s1

/-- `Lease.removeLeasee` on the Lease object `i`: delete the leasee from
the ledger; if the ledger is now empty and (just in case) a timer token is
still present, clear it and drop the token. -/
def removeLeasee (s : ClientState) (i : Nat) (leasee : String) : ClientState :=
  match s.heap i with
  | none => s
  | some L =>
    let newLedger := setDelete L.ledger leasee
    if newLedger = [] then
      let s1 := { s with
        heap := updN s.heap i
          (some { L with ledger := newLedger, evictionToken := none }) }
      match L.evictionToken with
      | some t => clearTimer s1 t
      | none => s1
    else
      { s with heap := updN s.heap i (some { L with ledger := newLedger }) }

/-- The cache updater the eviction callback hands to `setCache`:
`if (oldCache[entityKey]) { delete } else return oldCache` — the entry is
removed only when its value is truthy. -/
def evictionCacheUpdate (entityKey : String) (c : Cache) : Cache :=
  match c entityKey with
  | some v =>
    if v.truthy then fun k => if k = entityKey then none else c k
    else c
  | none => c

/-- The body of the eviction `setTimeout` callback in
`removeLeaseeFromLease` (EntityClient.ts), for the captured Lease object
`i`: if the ledger is still empty, invoke `lease.unsubscribe()` when
present, delete the Lease from `client.leases`, and run the cache updater. -/
def fireEviction (s : ClientState) (i : Nat) : ClientState :=
  match s.heap i with
  | none => s
  | some L =>
    if L.ledger = [] then
      let s1 :=
        match L.unsubscribe with
        | some u => { s with unsubCount := updN s.unsubCount u (s.unsubCount u + 1) }
        | none => s
      { s1 with
        leases := updS s1.leases L.entityKey none,
        cache := evictionCacheUpdate L.entityKey s1.cache }
    else s

/-- `removeLeaseeFromLease` (EntityClient.ts): remove the leasee from the
Lease's ledger; if the ledger became empty, schedule the eviction callback
after `getAbandonTime` and store its token on the Lease. -/
def removeLeaseeFromLease (s : ClientState) (i : Nat) (leasee : String) :
    ClientState :=
  let s1 := removeLeasee s i leasee
  match s1.heap i with
  | none => s1
  | some L =>
    if L.ledger = [] then
      let d := getAbandonTime L.options s1.options
      let t := s1.fresh
      { s1 with
        heap := updN s1.heap i (some { L with evictionToken := some t }),
        timers := s1.timers ++ [⟨t, s1.now + d, i⟩],
        fresh := s1.fresh + 1 }
    else s1

/-- `claimLease` (EntityClient.ts): get or create the Lease for the key
(options are used only by the constructor of a new Lease); if the leasee
is not yet in the ledger, add it and insert the Lease into the leasee's
index set (creating the set if needed).  Returns the Lease object's id. -/
def claimLease (s : ClientState) (entityKey leasee : String)
    (options : Option LeaseOptions) : ClientState × Nat :=
  let create :=
    match s.leases entityKey with
    | some i => (s, i)
    | none =>
      let i := s.fresh
      ({ s with
          heap := updN s.heap i (some { entityKey := entityKey, options := options }),
          leases := updS s.leases entityKey (some i),
          fresh := s.fresh + 1 }, i)
  let s0 := create.1
  let i := create.2
  match s0.heap i with
  | none => (s0, i)
  | some L =>
    if leasee ∈ L.ledger then (s0, i)
    else
      let s1 := addLeasee s0 i leasee
      let cur :=
        match s1.leaseeLeases leasee with
        | some set => set
        | none => []
      ({ s1 with leaseeLeases := updS s1.leaseeLeases leasee (some (setAddN cur i)) }, i)

/-- `releaseClaim` (functions.ts, EntityApi variant): hash the key; when a
Lease exists for it, run `removeLeaseeFromLease` and then delete the Lease
from the leasee's index set, dropping the set entirely when it empties. -/
def releaseClaim (s : ClientState) (leasee : String) (key : KeyArg) :
    ClientState :=
  match toHashValue key with
  | none => s
  | some h =>
    match s.leases h with
    | none => s
    | some i =>
      let s1 := removeLeaseeFromLease s i leasee
      match s1.leaseeLeases leasee with
      | none => s1
      | some set =>
        let set1 := setDeleteN set i
        if set1 = [] then
          { s1 with leaseeLeases := updS s1.leaseeLeases leasee none }
        else
          { s1 with leaseeLeases := updS s1.leaseeLeases leasee (some set1) }

/-- `EntityClient.disownAllLeases`: for every Lease in the leasee's index
set run `removeLeaseeFromLease`, then delete the leasee's index entry. -/
def disownAllLeases (s : ClientState) (leasee : String) : ClientState :=
  match s.leaseeLeases leasee with
  | none => s
  | some set =>
    let s1 := set.foldl (fun st i => removeLeaseeFromLease st i leasee) s
    { s1 with leaseeLeases := updS s1.leaseeLeases leasee none }

/-- Fire the pending timer with token `t`, if any: remove it from the
pending list and run the eviction callback it refers to. -/
def fireTimer (s : ClientState) (t : Nat) : ClientState :=
  match s.timers.find? (fun r => r.id = t) with
  | none => s
  | some r =>
    fireEviction { s with timers := s.timers.filter (fun q => q.id ≠ t) } r.leaseId

/-- Let the clock advance to time `T`: fire every pending timer whose
deadline has been reached (eviction callbacks schedule no new timers). -/
def advanceTo (s : ClientState) (T : Int) : ClientState :=
  let due := s.timers.filter (fun r => r.deadline ≤ T)
  let s1 := due.foldl
    (fun st r =>
      fireEviction { st with timers := st.timers.filter (fun q => q.id ≠ r.id) } r.leaseId)
    s
  { s1 with now := T }

/-- A concrete client state with one Lease (object id 0) for key "k",
claimed by leasee "a", created with an `abandonTime` override of 1000 ms,
and a truthy cache entry under "k". -/
def cexLease : Lease :=
  { entityKey := "k", ledger := ["a"], options := some ⟨some 1000⟩ }

/-- The concrete client state holding `cexLease`. -/
def cexState : ClientState where
  cache := fun k => if k = "k" then some (.obj 5) else none
  leases := fun k => if k = "k" then some 0 else none
  leaseeLeases := fun x => if x = "a" then some [0] else none
  heap := fun n => if n = 0 then some cexLease else none
  timers := []
  fresh := 1
  unsubCount := fun _ => 0
  now := 0
  options := {}

/-- A concrete client state with one Lease (object id 0) for key "k",
claimed only by "a", holding upstream cancel handle 7, with a truthy
cache entry under "k" and no pending timers. -/
def evLease : Lease :=
  { entityKey := "k", ledger := ["a"], unsubscribe := some 7 }

/-- The concrete client state holding `evLease`. -/
def evState : ClientState where
  cache := fun k => if k = "k" then some (.obj 5) else none
  leases := fun k => if k = "k" then some 0 else none
  leaseeLeases := fun x => if x = "a" then some [0] else none
  heap := fun n => if n = 0 then some evLease else none
  timers := []
  fresh := 1
  unsubCount := fun _ => 0
  now := 0
  options := {}

/-- Like `evState`, but the cache entry under "k" is the removed marker
`null` — a falsy value. -/
def evNullState : ClientState where
  cache := fun k => if k = "k" then some .null else none
  leases := fun k => if k = "k" then some 0 else none
  leaseeLeases := fun x => if x = "a" then some [0] else none
  heap := fun n => if n = 0 then some evLease else none
  timers := []
  fresh := 1
  unsubCount := fun _ => 0
  now := 0
  options := {}

/-- Lease object `j` is a member of the leasee index set under name `x`. -/
def inIndex (s : ClientState) (x : String) (j : Nat) : Prop :=
  ∃ set, s.leaseeLeases x = some set ∧ j ∈ set

/-- Name `x` is a member of the ledger of Lease object `j`. -/
def inLedger (s : ClientState) (j : Nat) (x : String) : Prop :=
  ∃ L, s.heap j = some L ∧ x ∈ L.ledger

/-- The two lease indices agree: a Lease is in the index under leasee X
iff X is in that Lease's ledger. -/
def IndexInv (s : ClientState) : Prop :=
  ∀ x j, inIndex s x j ↔ inLedger s j x

/-- Well-formedness of the fresh-id counter: every Lease object id stored
in the leasee index was previously handed out by the counter. -/
def IndexFresh (s : ClientState) : Prop :=
  ∀ x set, s.leaseeLeases x = some set → ∀ j ∈ set, j < s.fresh

/-- The pristine client state: empty cache, no leases, no index entries. -/
def emptyState : ClientState where
  cache := fun _ => none
  leases := fun _ => none
  leaseeLeases := fun _ => none
  heap := fun _ => none
  timers := []
  fresh := 0
  unsubCount := fun _ => 0
  now := 0
  options := {}

/-- Duplicate-freedom of an object's member names (JS objects cannot have
two members with the same name). -/
def keyNamesNodup : List (String × KeyPart) → Bool
  | [] => true
  | f :: fs => fs.all (fun g => g.1 != f.1) && keyNamesNodup fs

mutual

/-- A key part is well-formed when every object in it, at any depth, has
duplicate-free member names — automatically true of a JS object. -/
def wfKey : KeyPart → Bool
  | .undef => true
  | .null => true
  | .boolean _ => true
  | .num _ => true
  | .str _ => true
  | .arr xs => wfList xs
  | .obj fs => keyNamesNodup fs && wfFields fs

def wfList : List KeyPart → Bool
  | [] => true
  | x :: xs => wfKey x && wfList xs

def wfFields : List (String × KeyPart) → Bool
  | [] => true
  | f :: fs => wfKey f.2 && wfFields fs

end

mutual

/-- Structural equality of key parts up to reordering of object members:
scalars must be identical, arrays correspond pointwise, and the members of
an object on the left must correspond pointwise (equal names, recursively
equivalent values) to some permutation of the members on the right. -/
def StructEq : KeyPart → KeyPart → Prop
  | .undef, b => b = .undef
  | .null, b => b = .null
  | .boolean x, b => b = .boolean x
  | .num n, b => b = .num n
  | .str s, b => b = .str s
  | .arr xs, b => ∃ ys, b = .arr ys ∧ StructEqList xs ys
  | .obj fs, b => ∃ gs l, b = .obj gs ∧ List.Perm l gs ∧ StructEqFields fs l

def StructEqList : List KeyPart → List KeyPart → Prop
  | [], ys => ys = []
  | x :: xs, ys => ∃ y ys2, ys = y :: ys2 ∧ StructEq x y ∧ StructEqList xs ys2

def StructEqFields : List (String × KeyPart) → List (String × KeyPart) → Prop
  | [], l => l = []
  | f :: fs, l =>
    ∃ g l2, l = g :: l2 ∧ f.1 = g.1 ∧ StructEq f.2 g.2 ∧ StructEqFields fs l2

end

/-- Order on serialized members: compare member names only. -/
def pairLe (a b : String × String) : Prop := strLe a.1 b.1 = true

instance : DecidableRel pairLe := fun a b =>
  inferInstanceAs (Decidable (strLe a.1 b.1 = true))

theorem updS_same {β : Type} (m : String → β) (k : String) (v : β) :
    updS m k v k = v := by simp [updS]

theorem updS_other {β : Type} (m : String → β) (k x : String) (v : β)
    (h : x ≠ k) : updS m k v x = m x := by simp [updS, h]

theorem updN_same {β : Type} (m : Nat → β) (k : Nat) (v : β) :
    updN m k v k = v := by simp [updN]

theorem updN_other {β : Type} (m : Nat → β) (k x : Nat) (v : β)
    (h : x ≠ k) : updN m k v x = m x := by simp [updN, h]

/-- Claim C5: for every cache and lookup key, the status projection
`lookupEntityTuple` classifies the entry into exactly one status by
priority — idle when the key is null (canonicalization failed) or absent
from the cache; pending when present with the undefined pending marker;
error (carrying the error) when the value is an Error; removed when the
value is null; success (carrying the value) otherwise — i.e. it agrees
everywhere with the spec's priority-ordered projection rules. -/
theorem lookupEntityTuple_matches_spec (cache : Cache) (key : Option String) :
    lookupEntityTuple cache key = projectSpec cache key := by
  cases key with
  | none => rfl
  | some k =>
    cases h : cache k with
    | none => simp [lookupEntityTuple, projectSpec, h]
    | some v =>
      cases v <;> simp [lookupEntityTuple, projectSpec, h, isErrorValue]

/-- Claim C10: the eviction delay is resolved by truthiness, not presence:
`getAbandonTime` returns the lease's `abandonTime` when it is present and
nonzero, else the client's `abandonTime` when present and nonzero, else
the hard-coded 300000 ms; a configured value of 0 is treated as unset. -/
theorem getAbandonTime_truthiness (lo : Option LeaseOptions)
    (co : EntityApiOptions) :
    (∀ t, lo.bind LeaseOptions.abandonTime = some t → t ≠ 0 →
      getAbandonTime lo co = t) ∧
    ((lo.bind LeaseOptions.abandonTime = none ∨
        lo.bind LeaseOptions.abandonTime = some 0) →
      ∀ u, co.abandonTime = some u → u ≠ 0 → getAbandonTime lo co = u) ∧
    ((lo.bind LeaseOptions.abandonTime = none ∨
        lo.bind LeaseOptions.abandonTime = some 0) →
      (co.abandonTime = none ∨ co.abandonTime = some 0) →
      getAbandonTime lo co = DEFAULT_ABANDON_TIME) := by
  refine ⟨?_, ?_, ?_⟩
  · intro t ht hne
    simp [getAbandonTime, jsNumOr, ht, hne]
  · intro hl u hu hne
    rcases hl with hl | hl <;> simp [getAbandonTime, jsNumOr, hl, hu, hne]
  · intro hl hc
    rcases hl with hl | hl <;> rcases hc with hc | hc <;>
      simp [getAbandonTime, jsNumOr, hl, hc]

/-- Witness for C10: a lease whose configured `abandonTime` is 0 falls back
to the client's nonzero value, and with both set to 0 the 5-minute default
is used. -/
theorem getAbandonTime_truthiness_witness :
    getAbandonTime (some ⟨some 0⟩) ⟨some 7000⟩ = 7000 ∧
    getAbandonTime (some ⟨some 0⟩) ⟨some 0⟩ = 300000 := by
  constructor
  · exact (getAbandonTime_truthiness (some ⟨some 0⟩) ⟨some 7000⟩).2.1
      (Or.inr rfl) 7000 rfl (by decide)
  · exact (getAbandonTime_truthiness (some ⟨some 0⟩) ⟨some 0⟩).2.2
      (Or.inr rfl) (Or.inr rfl)

/-- Claim C2: no lost update — when two cache writes for distinct keys A
and B are issued, the second during the processing of the first (a nested
mutation before the first snapshot is committed), the finally published
snapshot contains both values, because every write hands `setCache` a
function-of-previous-snapshot updater and the single-writer store applies
each updater to the latest snapshot. -/
theorem no_lost_update (c : Cache) (A B : String) (a b : JsValue)
    (uA uB : Cache → Cache)
    (hAB : A ≠ B)
    (hu1 : setEntity (Sum.inl A) a = .ok uA)
    (hu2 : setEntity (Sum.inl B) b = .ok uB) :
    applyUpdaters c [uA, uB] A = some a ∧
    applyUpdaters c [uA, uB] B = some b := by
  by_cases hA : A = ""
  · rw [hA] at hu1
    simp [setEntity, toHashValue] at hu1
  by_cases hB : B = ""
  · rw [hB] at hu2
    simp [setEntity, toHashValue] at hu2
  simp only [setEntity, toHashValue, if_neg hA, if_neg hB, Except.ok.injEq] at hu1 hu2
  subst hu1
  subst hu2
  constructor
  · simp [applyUpdaters, hAB, Ne.symm hAB]
  · simp [applyUpdaters]

/-- Witness for C2: updating "a" and then, nestedly, "b" leaves both in
the final snapshot. -/
theorem no_lost_update_witness :
    applyUpdaters (fun _ => none)
      [fun old k => if k = "a" then some (.num 1) else old k,
       fun old k => if k = "b" then some (.num 2) else old k] "a" =
        some (.num 1) ∧
    applyUpdaters (fun _ => none)
      [fun old k => if k = "a" then some (.num 1) else old k,
       fun old k => if k = "b" then some (.num 2) else old k] "b" =
        some (.num 2) :=
  no_lost_update (fun _ => none) "a" "b" (.num 1) (.num 2) _ _
    (by decide) rfl rfl

mutual

/-- A key part containing the undefined sentinel anywhere is invalid. -/
theorem hasUndef_not_valid : ∀ a, hasUndef a = true → isValid a = false
  | .undef, _ => rfl
  | .null, h => by simp [hasUndef] at h
  | .boolean _, h => by simp [hasUndef] at h
  | .num _, h => by simp [hasUndef] at h
  | .str _, h => by simp [hasUndef] at h
  | .arr xs, h => by
    simp only [hasUndef] at h
    simpa only [isValid] using hasUndefList_not_valid xs h
  | .obj fs, h => by
    simp only [hasUndef] at h
    simpa only [isValid] using hasUndefFields_not_valid fs h

theorem hasUndefList_not_valid :
    ∀ xs, hasUndefList xs = true → isValidList xs = false
  | [], h => by simp [hasUndefList] at h
  | x :: xs, h => by
    simp only [hasUndefList, Bool.or_eq_true] at h
    simp only [isValidList, Bool.and_eq_false_iff]
    cases h with
    | inl h => exact Or.inl (hasUndef_not_valid x h)
    | inr h => exact Or.inr (hasUndefList_not_valid xs h)

theorem hasUndefFields_not_valid :
    ∀ fs, hasUndefFields fs = true → isValidFields fs = false
  | [], h => by simp [hasUndefFields] at h
  | f :: fs, h => by
    simp only [hasUndefFields, Bool.or_eq_true] at h
    simp only [isValidFields, Bool.and_eq_false_iff]
    cases h with
    | inl h => exact Or.inl (hasUndef_not_valid f.2 h)
    | inr h => exact Or.inr (hasUndefFields_not_valid fs h)

end

/-- Claim C7: for every structured key containing an undefined segment at
any depth, canonicalization returns null, and `setEntity` with that key
throws the invalid-key error before performing any cache write (no updater
reaches `setCache`, so the cache is unchanged). -/
theorem invalid_key_rejected (k : List KeyPart) (v : JsValue)
    (h : hasUndefList k = true) :
    toHashValue (Sum.inr k) = none ∧
    setEntity (Sum.inr k) v = .error invalidKeyError := by
  have hval : isValidList k = false := hasUndefList_not_valid k h
  have hth : toHashValue (Sum.inr k) = none := by
    simp [toHashValue, validateKey, hval]
  exact ⟨hth, by simp [setEntity, hth]⟩

/-- Witness for C7: a key whose undefined sits nested inside an array
segment is canonicalized to null and rejected by `setEntity`. -/
theorem invalid_key_rejected_witness :
    toHashValue (Sum.inr [.str "cities", .arr [.undef]]) = none ∧
    setEntity (Sum.inr [.str "cities", .arr [.undef]]) (.num 1) =
      .error invalidKeyError :=
  invalid_key_rejected [.str "cities", .arr [.undef]] (.num 1) (by decide)

/-- Claim C8: when the application-supplied transform callback invoked
from an upstream added/modified document event throws, the thrown value is
caught and stored as the cache value for the affected key — in particular
a thrown Error makes the projected status `error` with that error — and
the exception never propagates out of the snapshot handler (the handler
returns an updater instead of rethrowing). -/
theorem transform_error_captured (f : JsValue → Except JsValue JsValue)
    (h : String) (data : JsValue) (c : Cache)
    (hh : h ≠ "") :
    (∀ e, f data = .error e →
      ∃ u, onDocChanged (some f) h data = .ok u ∧ u c h = some e) ∧
    (∀ i m, f data = .error (.errorObj i m) →
      ∃ u, onDocChanged (some f) h data = .ok u ∧
        lookupEntityTuple (u c) (some h) = ⟨.undef, .errorObj i m, .error⟩) := by
  constructor
  · intro e he
    refine ⟨fun old k => if k = h then some e else old k, ?_, by simp⟩
    simp [onDocChanged, he, setEntity, toHashValue, hh, Except.bind]
  · intro i m he
    refine ⟨fun old k => if k = h then some (.errorObj i m) else old k, ?_, ?_⟩
    · simp [onDocChanged, he, setEntity, toHashValue, hh, Except.bind]
    · simp [lookupEntityTuple]

/-- Witness for C8: a transform that throws `Error "boom"` results in the
error being stored under the key and projected as status `error`. -/
theorem transform_error_captured_witness :
    ∃ u, onDocChanged (some fun _ => .error (.errorObj 3 "boom")) "k" .null = .ok u ∧
      lookupEntityTuple (u fun _ => none) (some "k") =
        ⟨.undef, .errorObj 3 "boom", .error⟩ :=
  (transform_error_captured (fun _ => .error (.errorObj 3 "boom")) "k" .null
    (fun _ => none) (by decide)).2 3 "boom" rfl

/-- Counterexample to claim C4 as stated: `claimLease` does not replace an
existing Lease's eviction-timing override.  Claiming "k" again with
`abandonTime = 2000` — whether by the leasee already in the ledger ("a")
or by a new leasee ("b") — leaves the override at the value 1000 recorded
when the Lease was created. -/
theorem claim_options_not_refreshed_cex :
    ((claimLease cexState "k" "a" (some ⟨some 2000⟩)).1.heap 0).map Lease.options
      = some (some ⟨some 1000⟩) ∧
    ((claimLease cexState "k" "b" (some ⟨some 2000⟩)).1.heap 0).map Lease.options
      = some (some ⟨some 1000⟩) := by decide

/-- Claim C4 (amended): the options supplied to `claimLease` are recorded
only when the call creates the Lease; when a Lease for the key already
exists the supplied options are ignored and the override fixed at creation
is kept (first-claim-wins by the Lease's `readonly options`), and when the
leasee is moreover already in the ledger the call leaves the client state
entirely unchanged. -/
theorem claim_options_first_claim_wins (s : ClientState) (K X : String)
    (opts : Option LeaseOptions) :
    (s.leases K = none →
      ((claimLease s K X opts).1.heap (claimLease s K X opts).2).map Lease.options
        = some opts) ∧
    (∀ i L, s.leases K = some i → s.heap i = some L →
      ((claimLease s K X opts).1.heap i).map Lease.options = some L.options ∧
      (X ∈ L.ledger → claimLease s K X opts = (s, i))) := by
  constructor
  · intro h
    simp [claimLease, h, addLeasee, updN, setAdd]
  · intro i L h hL
    by_cases hmem : X ∈ L.ledger
    · constructor
      · simp [claimLease, h, hL, hmem]
      · intro _
        simp [claimLease, h, hL, hmem]
    · constructor
      · cases htok : L.evictionToken with
        | some t =>
          simp [claimLease, h, hL, hmem, addLeasee, htok, clearTimer, updN]
        | none =>
          simp [claimLease, h, hL, hmem, addLeasee, htok, updN]
      · intro hx
        exact absurd hx hmem

/-- Witness for the amended C4: in `cexState`, a fresh leasee's claim with
new options keeps the override at 1000, and the already-claiming leasee's
repeated claim returns the state unchanged. -/
theorem claim_options_first_claim_wins_witness :
    ((claimLease cexState "k" "b" (some ⟨some 2000⟩)).1.heap 0).map Lease.options
      = some (some ⟨some 1000⟩) ∧
    claimLease cexState "k" "a" (some ⟨some 2000⟩) = (cexState, 0) := by
  constructor
  · have h := (claim_options_first_claim_wins cexState "k" "b"
      (some ⟨some 2000⟩)).2 0 cexLease rfl rfl
    exact h.1
  · have h := (claim_options_first_claim_wins cexState "k" "a"
      (some ⟨some 2000⟩)).2 0 cexLease rfl rfl
    exact h.2 (by decide)

theorem updN_updN {β : Type} (m : Nat → β) (k : Nat) (v w : β) :
    updN (updN m k v) k w = updN m k w := by
  funext x
  by_cases h : x = k <;> simp [updN, h]

/-- Releasing the only leasee of a Lease empties the ledger and schedules
the eviction timer: the full effect of `removeLeaseeFromLease` on a Lease
whose ledger is exactly `[A]` and which has no pending timer. -/
theorem removeLeaseeFromLease_single (s : ClientState) (A : String)
    (i : Nat) (L : Lease)
    (h2 : s.heap i = some L) (h3 : L.ledger = [A])
    (h4 : L.evictionToken = none) :
    removeLeaseeFromLease s i A =
      { s with
        heap := updN s.heap i
          (some { L with ledger := [], evictionToken := some s.fresh }),
        timers := s.timers ++
          [⟨s.fresh, s.now + getAbandonTime L.options s.options, i⟩],
        fresh := s.fresh + 1 } := by
  have hsd : setDelete L.ledger A = [] := by simp [h3, setDelete]
  simp only [removeLeaseeFromLease, removeLeasee, h2, hsd, h4, updN_same,
    reduceIte, updN_updN]

/-- `releaseClaim` on the sole leasee: every component except the leasee
index behaves exactly like `removeLeaseeFromLease` — the ledger empties,
the timer is scheduled, and cache, lease map, counters and clock are
untouched. -/
theorem releaseClaim_fields (s : ClientState) (K A : String) (i : Nat)
    (L : Lease)
    (h1 : s.leases K = some i) (h2 : s.heap i = some L)
    (h3 : L.ledger = [A]) (h4 : L.evictionToken = none) :
    (releaseClaim s A (Sum.inl K)).cache = s.cache ∧
    (releaseClaim s A (Sum.inl K)).leases = s.leases ∧
    (releaseClaim s A (Sum.inl K)).heap =
      updN s.heap i (some { L with ledger := [], evictionToken := some s.fresh }) ∧
    (releaseClaim s A (Sum.inl K)).timers =
      s.timers ++ [⟨s.fresh, s.now + getAbandonTime L.options s.options, i⟩] ∧
    (releaseClaim s A (Sum.inl K)).unsubCount = s.unsubCount ∧
    (releaseClaim s A (Sum.inl K)).fresh = s.fresh + 1 ∧
    (releaseClaim s A (Sum.inl K)).now = s.now := by
  have hrel := removeLeaseeFromLease_single s A i L h2 h3 h4
  simp only [releaseClaim, toHashValue, h1, hrel]
  cases hll : s.leaseeLeases A with
  | none => simp
  | some set =>
    by_cases hempty : setDeleteN set i = [] <;> simp [hempty]

/-- Counterexample to claim C1 as stated: in `evNullState` the cache entry
for "k" is still present (with the removed marker `null`) when the
eviction fires, yet it is not deleted — the callback guards the deletion
with the JS truthiness test `if (oldCache[entityKey])`, so the Lease is
removed and the upstream handle is cancelled while the falsy cache entry
survives. -/
theorem eviction_keeps_falsy_entry_cex :
    (fireTimer (releaseClaim evNullState "a" (Sum.inl "k")) 1).leases "k"
      = none ∧
    (fireTimer (releaseClaim evNullState "a" (Sum.inl "k")) 1).unsubCount 7
      = 1 ∧
    (releaseClaim evNullState "a" (Sum.inl "k")).cache "k" = some .null ∧
    (fireTimer (releaseClaim evNullState "a" (Sum.inl "k")) 1).cache "k"
      = some .null := by
  decide

/-- Claim C1 (amended): for every Lease on key K whose ledger becomes
empty at a release and receives no new claim before the delay elapses,
the release schedules an eviction timer, and when that timer fires the
upstream cancel handle (if any) is invoked exactly once (zero times at the
release, once at the fire), the Lease for K is removed from the registry's
key-to-Lease map, and the cache entry for K is deleted if it is still
present with a truthy value — an entry holding a falsy value (the pending
marker, the removed marker `null`, or a falsy application value) is left
in place. -/
theorem abandoned_lease_eviction (s : ClientState) (K A : String)
    (i : Nat) (L : Lease)
    (h1 : s.leases K = some i) (h2 : s.heap i = some L)
    (h3 : L.ledger = [A]) (h4 : L.evictionToken = none)
    (h5 : L.entityKey = K)
    (hfresh : ∀ r ∈ s.timers, r.id ≠ s.fresh) :
    (⟨s.fresh, s.now + getAbandonTime L.options s.options, i⟩ : TimerRec) ∈
      (releaseClaim s A (Sum.inl K)).timers ∧
    (fireTimer (releaseClaim s A (Sum.inl K)) s.fresh).leases K = none ∧
    (∀ u, L.unsubscribe = some u →
      (releaseClaim s A (Sum.inl K)).unsubCount u = s.unsubCount u ∧
      (fireTimer (releaseClaim s A (Sum.inl K)) s.fresh).unsubCount u
        = s.unsubCount u + 1) ∧
    (L.unsubscribe = none →
      (fireTimer (releaseClaim s A (Sum.inl K)) s.fresh).unsubCount
        = s.unsubCount) ∧
    (∀ v, s.cache K = some v → v.truthy = true →
      (fireTimer (releaseClaim s A (Sum.inl K)) s.fresh).cache K = none) ∧
    (∀ v, s.cache K = some v → v.truthy = false →
      (fireTimer (releaseClaim s A (Sum.inl K)) s.fresh).cache K = some v) := by
  obtain ⟨hc, hl, hh, ht, hu, hf, hn⟩ :=
    releaseClaim_fields s K A i L h1 h2 h3 h4
  have hfind : (releaseClaim s A (Sum.inl K)).timers.find?
      (fun r => r.id = s.fresh) =
      some ⟨s.fresh, s.now + getAbandonTime L.options s.options, i⟩ := by
    rw [ht, List.find?_append]
    have hnone : s.timers.find? (fun r => r.id = s.fresh) = none := by
      rw [List.find?_eq_none]
      intro r hr
      simpa using hfresh r hr
    simp [hnone]
  have hfire : fireTimer (releaseClaim s A (Sum.inl K)) s.fresh =
      fireEviction
        { releaseClaim s A (Sum.inl K) with
          timers := (releaseClaim s A (Sum.inl K)).timers.filter
            (fun q => q.id ≠ s.fresh) } i := by
    simp only [fireTimer, hfind]
  have hheapR : (releaseClaim s A (Sum.inl K)).heap i =
      some { L with ledger := [], evictionToken := some s.fresh } := by
    rw [hh]
    exact updN_same _ _ _
  refine ⟨?_, ?_, ?_, ?_, ?_, ?_⟩
  · rw [ht]
    simp
  · rw [hfire]
    cases hun : L.unsubscribe with
    | some u => simp [fireEviction, hheapR, hun, hl, h5, updS_same]
    | none => simp [fireEviction, hheapR, hun, hl, h5, updS_same]
  · intro u hun
    refine ⟨by rw [hu], ?_⟩
    rw [hfire]
    simp [fireEviction, hheapR, hun, hu, updN_same]
  · intro hun
    rw [hfire]
    simp [fireEviction, hheapR, hun, hu]
  · intro v hv htr
    rw [hfire]
    cases hun : L.unsubscribe <;>
      simp [fireEviction, hheapR, hun, evictionCacheUpdate, hc, h5, hv, htr]
  · intro v hv htr
    rw [hfire]
    cases hun : L.unsubscribe <;>
      simp [fireEviction, hheapR, hun, evictionCacheUpdate, hc, h5, hv, htr]

/-- Witness for the amended C1: releasing the sole claim in `evState` and
firing the scheduled timer removes the Lease, invokes cancel handle 7
exactly once, and deletes the truthy cache entry. -/
theorem abandoned_lease_eviction_witness :
    (fireTimer (releaseClaim evState "a" (Sum.inl "k")) 1).leases "k"
      = none ∧
    (fireTimer (releaseClaim evState "a" (Sum.inl "k")) 1).unsubCount 7
      = 1 ∧
    (fireTimer (releaseClaim evState "a" (Sum.inl "k")) 1).cache "k"
      = none := by
  have h := abandoned_lease_eviction evState "k" "a" 0 evLease
    rfl rfl rfl rfl rfl (by decide)
  refine ⟨h.2.1, ?_, ?_⟩
  · have := (h.2.2.1 7 rfl).2
    simpa using this
  · exact h.2.2.2.2.1 (.obj 5) rfl rfl

/-- Claim C3: if a Lease for K has ledger exactly `[A]` and `release(K,A)`
is called, the ledger becomes empty and an eviction timer is scheduled;
if `claim(K,A)` arrives before the delay elapses, the pending eviction
timer is cancelled (`addLeasee` clears `evictionToken` and the timer is
removed from the schedule), the Lease survives in the registry, and the
cache entry for K is still present after the original deadline passes. -/
theorem reclaim_cancels_eviction (s : ClientState) (K A : String)
    (i : Nat) (L : Lease) (v : JsValue)
    (h1 : s.leases K = some i) (h2 : s.heap i = some L)
    (h3 : L.ledger = [A]) (h4 : L.evictionToken = none)
    (htimers : s.timers = []) (hv : s.cache K = some v) :
    ((releaseClaim s A (Sum.inl K)).heap i).map Lease.ledger = some [] ∧
    (releaseClaim s A (Sum.inl K)).timers =
      [⟨s.fresh, s.now + getAbandonTime L.options s.options, i⟩] ∧
    ((releaseClaim s A (Sum.inl K)).heap i).map Lease.evictionToken =
      some (some s.fresh) ∧
    (claimLease (releaseClaim s A (Sum.inl K)) K A none).1.timers = [] ∧
    ((claimLease (releaseClaim s A (Sum.inl K)) K A none).1.heap i).map
      Lease.evictionToken = some none ∧
    (claimLease (releaseClaim s A (Sum.inl K)) K A none).1.leases K = some i ∧
    (advanceTo (claimLease (releaseClaim s A (Sum.inl K)) K A none).1
      (s.now + getAbandonTime L.options s.options)).cache K = some v := by
  obtain ⟨hc, hl, hh, ht, hu, hf, hn⟩ :=
    releaseClaim_fields s K A i L h1 h2 h3 h4
  have hlK : (releaseClaim s A (Sum.inl K)).leases K = some i := by
    rw [hl]; exact h1
  have hheapR : (releaseClaim s A (Sum.inl K)).heap i =
      some { L with ledger := [], evictionToken := some s.fresh } := by
    rw [hh]
    exact updN_same _ _ _
  have htR : (releaseClaim s A (Sum.inl K)).timers =
      [⟨s.fresh, s.now + getAbandonTime L.options s.options, i⟩] := by
    rw [ht, htimers]
    rfl
  refine ⟨?_, htR, ?_, ?_, ?_, ?_, ?_⟩
  · simp [hheapR]
  · simp [hheapR]
  · simp [claimLease, hlK, hheapR, addLeasee, clearTimer, updN_same, htR]
  · simp [claimLease, hlK, hheapR, addLeasee, clearTimer, updN_same, setAdd]
  · simp [claimLease, hlK, hheapR, addLeasee, clearTimer, updN_same, hlK]
  · simp [advanceTo, claimLease, hlK, hheapR, addLeasee, clearTimer,
      updN_same, setAdd, htR, hc, hv]

/-- Witness for C3: in `evState`, releasing the sole claim and then
re-claiming before the deadline cancels the scheduled eviction, the Lease
survives, and at the original deadline the cache entry is intact. -/
theorem reclaim_cancels_eviction_witness :
    (claimLease (releaseClaim evState "a" (Sum.inl "k")) "k" "a" none).1.timers
      = [] ∧
    (claimLease (releaseClaim evState "a" (Sum.inl "k")) "k" "a" none).1.leases
      "k" = some 0 ∧
    (advanceTo (claimLease (releaseClaim evState "a" (Sum.inl "k")) "k" "a"
      none).1 (evState.now + getAbandonTime evLease.options evState.options)).cache
      "k" = some (.obj 5) := by
  have h := reclaim_cancels_eviction evState "k" "a" 0 evLease (.obj 5)
    rfl rfl rfl rfl rfl rfl
  exact ⟨h.2.2.2.1, h.2.2.2.2.2.1, h.2.2.2.2.2.2⟩

theorem mem_setAdd (l : List String) (y a : String) :
    a ∈ setAdd l y ↔ a ∈ l ∨ a = y := by
  by_cases h : y ∈ l
  · simp only [setAdd, if_pos h]
    exact ⟨fun ha => Or.inl ha, fun ha => ha.elim id (fun he => he ▸ h)⟩
  · simp [setAdd, h, List.mem_append]

theorem mem_setAddN (l : List Nat) (y a : Nat) :
    a ∈ setAddN l y ↔ a ∈ l ∨ a = y := by
  by_cases h : y ∈ l
  · simp only [setAddN, if_pos h]
    exact ⟨fun ha => Or.inl ha, fun ha => ha.elim id (fun he => he ▸ h)⟩
  · simp [setAddN, h, List.mem_append]

theorem mem_setDelete (l : List String) (y a : String) :
    a ∈ setDelete l y ↔ a ∈ l ∧ a ≠ y := by
  simp [setDelete, List.mem_filter]

theorem mem_setDeleteN (l : List Nat) (y a : Nat) :
    a ∈ setDeleteN l y ↔ a ∈ l ∧ a ≠ y := by
  simp [setDeleteN, List.mem_filter]

/-- `removeLeaseeFromLease` never touches the leasee index. -/
theorem removeLeaseeFromLease_leaseeLeases (s : ClientState) (i : Nat)
    (y : String) :
    (removeLeaseeFromLease s i y).leaseeLeases = s.leaseeLeases := by
  unfold removeLeaseeFromLease removeLeasee
  cases h : s.heap i with
  | none => simp [h]
  | some L =>
    by_cases hsd : setDelete L.ledger y = []
    · cases htok : L.evictionToken with
      | some t => simp [h, hsd, htok, clearTimer, updN_same]
      | none => simp [h, hsd, htok, updN_same]
    · simp [h, hsd, updN_same]

/-- `removeLeaseeFromLease` is the identity when the Lease object does not
exist. -/
theorem removeLeaseeFromLease_eq_of_none (s : ClientState) (i : Nat)
    (y : String) (h : s.heap i = none) :
    removeLeaseeFromLease s i y = s := by
  unfold removeLeaseeFromLease removeLeasee
  simp [h]

/-- `removeLeaseeFromLease` deletes the leasee from the Lease's ledger
(leaving some eviction-token state behind) and leaves all other Lease
objects alone. -/
theorem removeLeaseeFromLease_heapSome (s : ClientState) (i : Nat)
    (y : String) (L : Lease) (h : s.heap i = some L) :
    ∃ token, (removeLeaseeFromLease s i y).heap =
      updN s.heap i (some { L with ledger := setDelete L.ledger y,
                                   evictionToken := token }) := by
  unfold removeLeaseeFromLease removeLeasee
  by_cases hsd : setDelete L.ledger y = []
  · cases htok : L.evictionToken with
    | some t =>
      refine ⟨some s.fresh, ?_⟩
      simp [h, hsd, htok, clearTimer, updN_same, updN_updN]
    | none =>
      refine ⟨some s.fresh, ?_⟩
      simp [h, hsd, htok, updN_same, updN_updN]
  · refine ⟨L.evictionToken, ?_⟩
    simp [h, hsd, updN_same]

/-- Effect of `removeLeaseeFromLease` on ledger membership. -/
theorem inLedger_removeLeaseeFromLease (s : ClientState) (i : Nat)
    (y : String) (j : Nat) (x : String) :
    inLedger (removeLeaseeFromLease s i y) j x ↔
      inLedger s j x ∧ ¬(j = i ∧ x = y) := by
  cases h : s.heap i with
  | none =>
    rw [removeLeaseeFromLease_eq_of_none s i y h]
    by_cases hj : j = i
    · subst hj
      simp [inLedger, h]
    · simp [hj]
  | some L =>
    obtain ⟨tok, hE⟩ := removeLeaseeFromLease_heapSome s i y L h
    by_cases hj : j = i
    · subst hj
      simp [inLedger, hE, updN_same, h, mem_setDelete]
    · simp [inLedger, hE, updN, hj]

/-- Folding `removeLeaseeFromLease` over a list of Lease ids never touches
the leasee index. -/
theorem foldRemove_leaseeLeases (s : ClientState) (y : String)
    (l : List Nat) :
    (l.foldl (fun st i => removeLeaseeFromLease st i y) s).leaseeLeases =
      s.leaseeLeases := by
  induction l generalizing s with
  | nil => rfl
  | cons a l ih =>
    rw [List.foldl_cons, ih, removeLeaseeFromLease_leaseeLeases]

/-- Effect on ledger membership of folding `removeLeaseeFromLease` over a
list of Lease ids. -/
theorem inLedger_foldRemove (s : ClientState) (y : String) (l : List Nat)
    (j : Nat) (x : String) :
    inLedger (l.foldl (fun st i => removeLeaseeFromLease st i y) s) j x ↔
      inLedger s j x ∧ ¬(x = y ∧ j ∈ l) := by
  induction l generalizing s with
  | nil => simp
  | cons a l ih =>
    rw [List.foldl_cons, ih, inLedger_removeLeaseeFromLease]
    simp only [List.mem_cons]
    tauto

/-- `addLeasee` inserts into the ledger, clears the eviction token, and
leaves the leasee index alone. -/
theorem addLeasee_char (s : ClientState) (i : Nat) (y : String) (L : Lease)
    (h : s.heap i = some L) :
    (addLeasee s i y).heap =
      updN s.heap i (some { L with ledger := setAdd L.ledger y,
                                   evictionToken := none }) ∧
    (addLeasee s i y).leaseeLeases = s.leaseeLeases := by
  unfold addLeasee
  cases htok : L.evictionToken with
  | some t => simp [h, htok, clearTimer]
  | none => simp [h, htok]

/-- Membership in the current index set of a leasee (`[]` when the leasee
has no set yet) is exactly `inIndex`. -/
theorem mem_indexSet (s : ClientState) (X : String) (j : Nat) :
    (j ∈ (match s.leaseeLeases X with
      | some set => set
      | none => ([] : List Nat))) ↔ inIndex s X j := by
  cases hc : s.leaseeLeases X with
  | some set => simp [inIndex, hc]
  | none => simp [inIndex, hc]

/-- Adding a claim preserves the index/ledger agreement: if the post state
R has, relative to s, exactly leasee X added to the ledger of Lease i and
Lease i added to X's index set, the agreement carries over. -/
theorem IndexInv_addClaim (s R : ClientState) (X : String) (i : Nat)
    (oldLedger : List String) (cur : List Nat)
    (hInv : IndexInv s)
    (hheapi : ∃ LR, R.heap i = some LR ∧ LR.ledger = setAdd oldLedger X)
    (hheapo : ∀ j, j ≠ i → R.heap j = s.heap j)
    (hlli : R.leaseeLeases X = some (setAddN cur i))
    (hllo : ∀ x, x ≠ X → R.leaseeLeases x = s.leaseeLeases x)
    (hcompat : ∀ x, inIndex s x i ↔ x ∈ oldLedger)
    (hcur : ∀ j, j ∈ cur ↔ inIndex s X j) :
    IndexInv R := by
  obtain ⟨LR, hLR, hLRl⟩ := hheapi
  intro x j
  by_cases hx : x = X
  · by_cases hj : j = i
    · subst hx
      subst hj
      constructor
      · intro _
        exact ⟨LR, hLR, by rw [hLRl]; exact (mem_setAdd _ _ _).mpr (Or.inr rfl)⟩
      · intro _
        exact ⟨setAddN cur j, hlli, (mem_setAddN _ _ _).mpr (Or.inr rfl)⟩
    · subst hx
      have lhs : inIndex R x j ↔ inIndex s x j := by
        constructor
        · rintro ⟨set2, hset2, hjm⟩
          rw [hlli, Option.some_inj] at hset2
          rw [← hset2] at hjm
          rcases (mem_setAddN _ _ _).mp hjm with hjm | hjm
          · exact (hcur j).mp hjm
          · exact absurd hjm hj
        · intro hix
          exact ⟨setAddN cur i, hlli,
            (mem_setAddN _ _ _).mpr (Or.inl ((hcur j).mpr hix))⟩
      have rhs : inLedger R j x ↔ inLedger s j x := by
        unfold inLedger
        rw [hheapo j hj]
      rw [lhs, rhs]
      exact hInv x j
  · by_cases hj : j = i
    · subst hj
      have lhs : inIndex R x j ↔ x ∈ oldLedger := by
        unfold inIndex
        rw [hllo x hx]
        exact hcompat x
      have rhs : inLedger R j x ↔ x ∈ oldLedger := by
        constructor
        · rintro ⟨L2, hL2, hxm⟩
          rw [hLR, Option.some_inj] at hL2
          rw [← hL2, hLRl] at hxm
          rcases (mem_setAdd _ _ _).mp hxm with hxm | hxm
          · exact hxm
          · exact absurd hxm hx
        · intro hxm
          exact ⟨LR, hLR, by rw [hLRl]; exact (mem_setAdd _ _ _).mpr (Or.inl hxm)⟩
      rw [lhs, rhs]
    · have lhs : inIndex R x j ↔ inIndex s x j := by
        unfold inIndex
        rw [hllo x hx]
      have rhs : inLedger R j x ↔ inLedger s j x := by
        unfold inLedger
        rw [hheapo j hj]
      rw [lhs, rhs]
      exact hInv x j

/-- `claimLease` preserves the index/ledger agreement. -/
theorem IndexInv_claimLease (s : ClientState) (K X : String)
    (opts : Option LeaseOptions)
    (hWF : IndexFresh s) (hInv : IndexInv s) :
    IndexInv (claimLease s K X opts).1 := by
  cases hK : s.leases K with
  | some i =>
    cases hLi : s.heap i with
    | none =>
      have hid : (claimLease s K X opts).1 = s := by
        simp [claimLease, hK, hLi]
      rw [hid]
      exact hInv
    | some L =>
      by_cases hmem : X ∈ L.ledger
      · have hid : (claimLease s K X opts).1 = s := by
          simp [claimLease, hK, hLi, hmem]
        rw [hid]
        exact hInv
      · obtain ⟨hah, hal⟩ := addLeasee_char s i X L hLi
        have hheap : (claimLease s K X opts).1.heap =
            updN s.heap i (some { L with ledger := setAdd L.ledger X,
                                         evictionToken := none }) := by
          simp [claimLease, hK, hLi, hmem, hah]
        have hll2 : (claimLease s K X opts).1.leaseeLeases =
            updS s.leaseeLeases X
              (some (setAddN (match s.leaseeLeases X with
                 | some set => set
                 | none => []) i)) := by
          simp [claimLease, hK, hLi, hmem, hal]
        refine IndexInv_addClaim s _ X i L.ledger
          (match s.leaseeLeases X with
            | some set => set
            | none => []) hInv ?_ ?_ ?_ ?_ ?_ ?_
        · exact ⟨_, by rw [hheap]; exact updN_same _ _ _, rfl⟩
        · intro j hj
          rw [hheap]
          exact updN_other _ _ _ _ hj
        · rw [hll2]
          exact updS_same _ _ _
        · intro x hx
          rw [hll2]
          exact updS_other _ _ _ _ hx
        · intro x
          rw [hInv x i]
          unfold inLedger
          rw [hLi]
          constructor
          · rintro ⟨L2, hL2, hxm⟩
            rw [Option.some_inj] at hL2
            rw [← hL2] at hxm
            exact hxm
          · intro hxm
            exact ⟨L, rfl, hxm⟩
        · intro j
          exact mem_indexSet s X j
  | none =>
    have hheap : (claimLease s K X opts).1.heap =
        updN s.heap s.fresh
          (some { entityKey := K, ledger := setAdd [] X, unsubscribe := none,
                  options := opts, evictionToken := none }) := by
      simp [claimLease, hK, addLeasee, updN_same, updN_updN]
    have hll2 : (claimLease s K X opts).1.leaseeLeases =
        updS s.leaseeLeases X
          (some (setAddN (match s.leaseeLeases X with
             | some set => set
             | none => []) s.fresh)) := by
      simp [claimLease, hK, addLeasee, updN_same]
    refine IndexInv_addClaim s _ X s.fresh []
      (match s.leaseeLeases X with
        | some set => set
        | none => []) hInv ?_ ?_ ?_ ?_ ?_ ?_
    · exact ⟨_, by rw [hheap]; exact updN_same _ _ _, rfl⟩
    · intro j hj
      rw [hheap]
      exact updN_other _ _ _ _ hj
    · rw [hll2]
      exact updS_same _ _ _
    · intro x hx
      rw [hll2]
      exact updS_other _ _ _ _ hx
    · intro x
      simp only [List.not_mem_nil, iff_false]
      rintro ⟨set2, hset2, hjm⟩
      exact absurd (hWF x set2 hset2 _ hjm) (by simp)
    · intro j
      exact mem_indexSet s X j

/-- `releaseClaim` preserves the index/ledger agreement. -/
theorem IndexInv_releaseClaim (s : ClientState) (X : String) (key : KeyArg)
    (hInv : IndexInv s) : IndexInv (releaseClaim s X key) := by
  cases hh : toHashValue key with
  | none =>
    have hid : releaseClaim s X key = s := by
      simp [releaseClaim, hh]
    rw [hid]
    exact hInv
  | some h =>
    cases hK : s.leases h with
    | none =>
      have hid : releaseClaim s X key = s := by
        simp [releaseClaim, hh, hK]
      rw [hid]
      exact hInv
    | some i =>
      have hrl := removeLeaseeFromLease_leaseeLeases s i X
      cases hcur : s.leaseeLeases X with
      | none =>
        have hres : releaseClaim s X key = removeLeaseeFromLease s i X := by
          simp [releaseClaim, hh, hK, hrl, hcur]
        rw [hres]
        intro x j
        rw [inLedger_removeLeaseeFromLease]
        have lhs : inIndex (removeLeaseeFromLease s i X) x j ↔ inIndex s x j := by
          unfold inIndex
          rw [hrl]
        rw [lhs, hInv x j]
        constructor
        · intro hld
          refine ⟨hld, ?_⟩
          rintro ⟨rfl, rfl⟩
          obtain ⟨set2, hset2, -⟩ := (hInv _ _).mpr hld
          rw [hcur] at hset2
          exact absurd hset2 (by simp)
        · intro hld
          exact hld.1
      | some set =>
        have core : ∀ (R : ClientState) (v : Option (List Nat)),
            (∀ j x, inLedger R j x ↔
              inLedger (removeLeaseeFromLease s i X) j x) →
            (∀ x, R.leaseeLeases x =
              updS (removeLeaseeFromLease s i X).leaseeLeases X v x) →
            (∀ j, (∃ set2, v = some set2 ∧ j ∈ set2) ↔ (j ∈ set ∧ j ≠ i)) →
            IndexInv R := by
          intro R v hhp hll hv x j
          rw [hhp j x, inLedger_removeLeaseeFromLease]
          by_cases hx : x = X
          · rw [hx]
            have lhs : inIndex R X j ↔ (j ∈ set ∧ j ≠ i) := by
              rw [← hv j]
              unfold inIndex
              rw [hll X, updS_same]
            rw [lhs]
            have hsX : inLedger s j X ↔ j ∈ set := by
              rw [← hInv X j]
              unfold inIndex
              rw [hcur]
              simp
            rw [hsX]
            constructor
            · rintro ⟨hjm, hji⟩
              exact ⟨hjm, fun hc => hji hc.1⟩
            · rintro ⟨hjm, hni⟩
              exact ⟨hjm, fun hji => hni ⟨hji, rfl⟩⟩
          · have lhs : inIndex R x j ↔ inIndex s x j := by
              unfold inIndex
              rw [hll x, updS_other _ _ _ _ hx, hrl]
            rw [lhs, hInv x j]
            constructor
            · intro hld
              exact ⟨hld, fun hc => hx hc.2⟩
            · intro hld
              exact hld.1
        by_cases hempty : setDeleteN set i = []
        · have hres : releaseClaim s X key =
              { removeLeaseeFromLease s i X with
                leaseeLeases :=
                  updS (removeLeaseeFromLease s i X).leaseeLeases X none } := by
            simp [releaseClaim, hh, hK, hrl, hcur, hempty]
          rw [hres]
          refine core _ none (fun j x => Iff.rfl) (fun x => rfl) ?_
          intro j
          constructor
          · rintro ⟨set2, hset2, -⟩
            exact absurd hset2 (by simp)
          · intro hjm
            have hmm : j ∈ setDeleteN set i := (mem_setDeleteN _ _ _).mpr hjm
            rw [hempty] at hmm
            exact absurd hmm (by simp)
        · have hres : releaseClaim s X key =
              { removeLeaseeFromLease s i X with
                leaseeLeases :=
                  updS (removeLeaseeFromLease s i X).leaseeLeases X
                    (some (setDeleteN set i)) } := by
            simp [releaseClaim, hh, hK, hrl, hcur, hempty]
          rw [hres]
          refine core _ (some (setDeleteN set i)) (fun j x => Iff.rfl)
            (fun x => rfl) ?_
          intro j
          constructor
          · rintro ⟨set2, hset2, hjm⟩
            rw [Option.some_inj] at hset2
            rw [← hset2] at hjm
            exact (mem_setDeleteN _ _ _).mp hjm
          · intro hjm
            exact ⟨setDeleteN set i, rfl, (mem_setDeleteN _ _ _).mpr hjm⟩

/-- `disownAllLeases` preserves the index/ledger agreement. -/
theorem IndexInv_disownAllLeases (s : ClientState) (X : String)
    (hInv : IndexInv s) : IndexInv (disownAllLeases s X) := by
  cases hcur : s.leaseeLeases X with
  | none =>
    have hid : disownAllLeases s X = s := by
      simp [disownAllLeases, hcur]
    rw [hid]
    exact hInv
  | some set =>
    have hres : disownAllLeases s X =
        { set.foldl (fun st i => removeLeaseeFromLease st i X) s with
          leaseeLeases :=
            updS (set.foldl (fun st i => removeLeaseeFromLease st i X)
              s).leaseeLeases X none } := by
      simp [disownAllLeases, hcur]
    have core : ∀ R : ClientState,
        (∀ j x, inLedger R j x ↔
          inLedger (set.foldl (fun st i => removeLeaseeFromLease st i X) s) j x) →
        (∀ x, R.leaseeLeases x =
          updS (set.foldl (fun st i => removeLeaseeFromLease st i X)
            s).leaseeLeases X none x) →
        IndexInv R := by
      intro R hhp hll x j
      rw [hhp j x, inLedger_foldRemove]
      by_cases hx : x = X
      · rw [hx]
        constructor
        · rintro ⟨set2, hset2, -⟩
          rw [hll X, updS_same] at hset2
          exact absurd hset2 (by simp)
        · rintro ⟨hld, hnot⟩
          obtain ⟨set2, hset2, hjm⟩ := (hInv X j).mpr hld
          rw [hcur, Option.some_inj] at hset2
          rw [← hset2] at hjm
          exact absurd ⟨rfl, hjm⟩ hnot
      · have lhs : inIndex R x j ↔ inIndex s x j := by
          unfold inIndex
          rw [hll x, updS_other _ _ _ _ hx, foldRemove_leaseeLeases]
        rw [lhs, hInv x j]
        constructor
        · intro hld
          exact ⟨hld, fun hc => hx hc.1⟩
        · intro hld
          exact hld.1
    rw [hres]
    exact core _ (fun j x => Iff.rfl) (fun x => rfl)

/-- Claim C6: after every single claim, release, or disown-all operation
completes, a Lease L is a member of the leasee-name-to-Lease-set index
under name X if and only if X is a member of L's ledger — provided the
starting state satisfied the same agreement and its index only holds ids
already issued by the fresh-id counter. -/
theorem index_ledger_invariant (s : ClientState)
    (hWF : IndexFresh s) (hInv : IndexInv s) :
    (∀ K X opts, IndexInv (claimLease s K X opts).1) ∧
    (∀ X key, IndexInv (releaseClaim s X key)) ∧
    (∀ X, IndexInv (disownAllLeases s X)) :=
  ⟨fun K X opts => IndexInv_claimLease s K X opts hWF hInv,
   fun X key => IndexInv_releaseClaim s X key hInv,
   fun X => IndexInv_disownAllLeases s X hInv⟩

/-- Witness for C6: from the pristine state, one claim, one release, and
one disown-all each leave the two indices in agreement. -/
theorem index_ledger_invariant_witness :
    IndexInv (claimLease emptyState "k" "a" none).1 ∧
    IndexInv (releaseClaim emptyState "a" (Sum.inl "k")) ∧
    IndexInv (disownAllLeases emptyState "a") := by
  have hWF : IndexFresh emptyState := by
    intro x set h
    simp [emptyState] at h
  have hInv : IndexInv emptyState := by
    intro x j
    simp [inIndex, inLedger, emptyState]
  have h := index_ledger_invariant emptyState hWF hInv
  exact ⟨h.1 "k" "a" none, h.2.1 "a" (Sum.inl "k"), h.2.2 "a"⟩

theorem charListLe_cons (a b : Char) (as bs : List Char) :
    charListLe (a :: as) (b :: bs) = true ↔
      (a.val.toNat < b.val.toNat ∨
        (a.val.toNat = b.val.toNat ∧ charListLe as bs = true)) := by
  simp only [charListLe]
  by_cases h1 : a.val.toNat < b.val.toNat <;>
    by_cases h2 : b.val.toNat < a.val.toNat <;>
      simp [h1, h2] <;> omega

theorem charListLe_total : ∀ as bs : List Char,
    charListLe as bs = true ∨ charListLe bs as = true
  | [], _ => Or.inl rfl
  | _ :: _, [] => Or.inr rfl
  | a :: as, b :: bs => by
    rw [charListLe_cons, charListLe_cons]
    by_cases h1 : a.val.toNat < b.val.toNat
    · exact Or.inl (Or.inl h1)
    · by_cases h2 : b.val.toNat < a.val.toNat
      · exact Or.inr (Or.inl h2)
      · rcases charListLe_total as bs with h | h
        · exact Or.inl (Or.inr ⟨by omega, h⟩)
        · exact Or.inr (Or.inr ⟨by omega, h⟩)

theorem charListLe_trans : ∀ as bs cs : List Char,
    charListLe as bs = true → charListLe bs cs = true →
    charListLe as cs = true
  | [], _, _, _, _ => rfl
  | _ :: _, [], _, h1, _ => by simp [charListLe] at h1
  | _ :: _, _ :: _, [], _, h2 => by simp [charListLe] at h2
  | a :: as, b :: bs, c :: cs, h1, h2 => by
    rw [charListLe_cons] at h1 h2 ⊢
    rcases h1 with h1 | ⟨he1, hr1⟩
    · rcases h2 with h2 | ⟨he2, hr2⟩
      · exact Or.inl (by omega)
      · exact Or.inl (by omega)
    · rcases h2 with h2 | ⟨he2, hr2⟩
      · exact Or.inl (by omega)
      · exact Or.inr ⟨by omega, charListLe_trans as bs cs hr1 hr2⟩

theorem charListLe_antisymm : ∀ as bs : List Char,
    charListLe as bs = true → charListLe bs as = true → as = bs
  | [], [], _, _ => rfl
  | [], _ :: _, _, h2 => by simp [charListLe] at h2
  | _ :: _, [], h1, _ => by simp [charListLe] at h1
  | a :: as, b :: bs, h1, h2 => by
    rw [charListLe_cons] at h1 h2
    rcases h1 with h1 | ⟨he1, hr1⟩
    · rcases h2 with h2 | ⟨he2, hr2⟩ <;> omega
    · rcases h2 with h2 | ⟨he2, hr2⟩
      · omega
      · have hc : a = b := Char.eq_of_val_eq (UInt32.ext he1)
        rw [hc, charListLe_antisymm as bs hr1 hr2]

theorem strLe_total (a b : String) :
    strLe a b = true ∨ strLe b a = true :=
  charListLe_total a.data b.data

theorem strLe_trans {a b c : String} (h1 : strLe a b = true)
    (h2 : strLe b c = true) : strLe a c = true :=
  charListLe_trans a.data b.data c.data h1 h2

theorem strLe_antisymm {a b : String} (h1 : strLe a b = true)
    (h2 : strLe b a = true) : a = b := by
  have hd : a.data = b.data := charListLe_antisymm a.data b.data h1 h2
  cases a
  cases b
  exact congrArg String.mk hd

theorem sortPairs_perm (ps : List (String × String)) :
    (sortPairs ps).Perm ps :=
  List.perm_insertionSort _ ps

theorem sortPairs_sorted (ps : List (String × String)) :
    List.Pairwise pairLe (sortPairs ps) := by
  haveI : IsTotal (String × String) pairLe := ⟨fun a b => strLe_total a.1 b.1⟩
  haveI : IsTrans (String × String) pairLe :=
    ⟨fun _ _ _ h1 h2 => strLe_trans h1 h2⟩
  exact List.sorted_insertionSort pairLe ps

/-- Two sorted member lists with duplicate-free names that are
permutations of each other are equal. -/
theorem sorted_nodupkeys_perm_eq :
    ∀ (p q : List (String × String)), p.Perm q →
      List.Pairwise pairLe p → List.Pairwise pairLe q →
      (p.map Prod.fst).Nodup → p = q
  | [], q, hperm, _, _, _ => (hperm.symm.eq_nil).symm
  | (k, v) :: t, q, hperm, hp, hq, hnd => by
    cases q with
    | nil => exact absurd hperm.eq_nil (by simp)
    | cons b u =>
      obtain ⟨hpk, hpt⟩ := List.pairwise_cons.mp hp
      obtain ⟨hqb, hqu⟩ := List.pairwise_cons.mp hq
      simp only [List.map_cons, List.nodup_cons] at hnd
      obtain ⟨hknot, hndt⟩ := hnd
      have hb : b = (k, v) := by
        have hbin : b ∈ (k, v) :: t := hperm.mem_iff.mpr (List.mem_cons_self b u)
        rcases List.mem_cons.mp hbin with h | h
        · exact h
        · have hkin : (k, v) ∈ b :: u :=
            hperm.mem_iff.mp (List.mem_cons_self (k, v) t)
          rcases List.mem_cons.mp hkin with h2 | h2
          · exact h2.symm
          · have h3 : pairLe (k, v) b := hpk b h
            have h4 : pairLe b (k, v) := hqb (k, v) h2
            have h5 : b.1 = k := strLe_antisymm h4 h3
            exact absurd (List.mem_map.mpr ⟨b, h, h5⟩) hknot
      subst hb
      have ht : t = u :=
        sorted_nodupkeys_perm_eq t u hperm.cons_inv hpt hqu hndt
      rw [ht]

/-- Sorting by member name is determined by the multiset of members when
the names are duplicate-free. -/
theorem sortPairs_eq_of_perm (p q : List (String × String))
    (hperm : p.Perm q) (hnd : (p.map Prod.fst).Nodup) :
    sortPairs p = sortPairs q := by
  have h1 : (sortPairs p).Perm (sortPairs q) :=
    ((sortPairs_perm p).trans hperm).trans (sortPairs_perm q).symm
  have hnd1 : ((sortPairs p).map Prod.fst).Nodup :=
    (((sortPairs_perm p).map Prod.fst).nodup_iff).mpr hnd
  exact sorted_nodupkeys_perm_eq _ _ h1 (sortPairs_sorted p)
    (sortPairs_sorted q) hnd1

theorem stringifyPairs_eq_map (fs : List (String × KeyPart)) :
    stringifyPairs fs = fs.map (fun p => (p.1, stringifyKeyPart p.2)) := by
  induction fs with
  | nil => rfl
  | cons f fs ih => simp [stringifyPairs, ih]

theorem stringifyPairs_fst (fs : List (String × KeyPart)) :
    (stringifyPairs fs).map Prod.fst = fs.map Prod.fst := by
  rw [stringifyPairs_eq_map, List.map_map]
  rfl

theorem keyNamesNodup_iff (fs : List (String × KeyPart)) :
    keyNamesNodup fs = true ↔ (fs.map Prod.fst).Nodup := by
  induction fs with
  | nil => simp [keyNamesNodup]
  | cons f fs ih =>
    simp only [keyNamesNodup, Bool.and_eq_true, List.all_eq_true,
      List.map_cons, List.nodup_cons, ih, List.mem_map, bne_iff_ne]
    constructor
    · rintro ⟨hall, hnd⟩
      refine ⟨?_, hnd⟩
      rintro ⟨g, hg, hgeq⟩
      exact hall g hg hgeq
    · rintro ⟨hnin, hnd⟩
      exact ⟨fun g hg hgeq => hnin ⟨g, hg, hgeq⟩, hnd⟩

theorem wfFields_mem (fs : List (String × KeyPart))
    (h : wfFields fs = true) : ∀ p ∈ fs, wfKey p.2 = true := by
  induction fs with
  | nil => intro p hp; exact absurd hp (by simp)
  | cons f fs ih =>
    simp only [wfFields, Bool.and_eq_true] at h
    intro p hp
    rcases List.mem_cons.mp hp with rfl | hp
    · exact h.1
    · exact ih h.2 p hp

mutual

/-- Structurally equal well-formed key parts (differing only in object
member order) serialize identically. -/
theorem structEq_stringify : ∀ a b, StructEq a b → wfKey a = true →
    wfKey b = true → stringifyKeyPart a = stringifyKeyPart b
  | .undef, b, h, _, _ => by
    simp only [StructEq] at h
    subst h
    rfl
  | .null, b, h, _, _ => by
    simp only [StructEq] at h
    subst h
    rfl
  | .boolean x, b, h, _, _ => by
    simp only [StructEq] at h
    subst h
    rfl
  | .num n, b, h, _, _ => by
    simp only [StructEq] at h
    subst h
    rfl
  | .str s, b, h, _, _ => by
    simp only [StructEq] at h
    subst h
    rfl
  | .arr xs, b, h, wa, wb => by
    simp only [StructEq] at h
    obtain ⟨ys, rfl, hlist⟩ := h
    simp only [wfKey] at wa wb
    simp only [stringifyKeyPart]
    rw [structEqList_stringify xs ys hlist wa wb]
  | .obj fs, b, h, wa, wb => by
    simp only [StructEq] at h
    obtain ⟨gs, l, rfl, hperm, hfields⟩ := h
    simp only [wfKey, Bool.and_eq_true] at wa wb
    obtain ⟨hndf, hwf⟩ := wa
    obtain ⟨hndg, hwg⟩ := wb
    have hwl : ∀ p ∈ l, wfKey p.2 = true :=
      fun p hp => wfFields_mem gs hwg p (hperm.subset hp)
    have hps : stringifyPairs fs = stringifyPairs l :=
      structEqFields_stringify fs l hfields hwf hwl
    have hpermP : (stringifyPairs fs).Perm (stringifyPairs gs) := by
      rw [hps, stringifyPairs_eq_map, stringifyPairs_eq_map]
      exact hperm.map _
    have hnd : ((stringifyPairs fs).map Prod.fst).Nodup := by
      rw [stringifyPairs_fst]
      exact (keyNamesNodup_iff fs).mp hndf
    have hsorteq : sortPairs (stringifyPairs fs) =
        sortPairs (stringifyPairs gs) :=
      sortPairs_eq_of_perm _ _ hpermP hnd
    simp only [stringifyKeyPart]
    rw [hsorteq]

theorem structEqList_stringify : ∀ xs ys, StructEqList xs ys →
    wfList xs = true → wfList ys = true →
    stringifyList xs = stringifyList ys
  | [], ys, h, _, _ => by
    simp only [StructEqList] at h
    subst h
    rfl
  | x :: xs, ys, h, wa, wb => by
    simp only [StructEqList] at h
    obtain ⟨y, ys2, rfl, hxy, hrest⟩ := h
    simp only [wfList, Bool.and_eq_true] at wa wb
    cases xs with
    | nil =>
      simp only [StructEqList] at hrest
      subst hrest
      simp only [stringifyList]
      rw [structEq_stringify x y hxy wa.1 wb.1]
    | cons x2 xs2 =>
      simp only [StructEqList] at hrest
      obtain ⟨y2, ys3, rfl, hxy2, hrest2⟩ := hrest
      have hrec : stringifyList (x2 :: xs2) = stringifyList (y2 :: ys3) :=
        structEqList_stringify (x2 :: xs2) (y2 :: ys3)
          (by simp only [StructEqList]; exact ⟨y2, ys3, rfl, hxy2, hrest2⟩)
          wa.2 wb.2
      simp only [stringifyList]
      rw [structEq_stringify x y hxy wa.1 wb.1, hrec]

theorem structEqFields_stringify : ∀ fs l, StructEqFields fs l →
    wfFields fs = true → (∀ p ∈ l, wfKey p.2 = true) →
    stringifyPairs fs = stringifyPairs l
  | [], l, h, _, _ => by
    simp only [StructEqFields] at h
    subst h
    rfl
  | f :: fs, l, h, wa, wl => by
    simp only [StructEqFields] at h
    obtain ⟨g, l2, rfl, hkey, hval, hrest⟩ := h
    simp only [wfFields, Bool.and_eq_true] at wa
    have h1 : stringifyKeyPart f.2 = stringifyKeyPart g.2 :=
      structEq_stringify f.2 g.2 hval wa.1 (wl g (List.mem_cons_self g l2))
    have h2 : stringifyPairs fs = stringifyPairs l2 :=
      structEqFields_stringify fs l2 hrest wa.2
        (fun p hp => wl p (List.mem_cons_of_mem g hp))
    simp only [stringifyPairs]
    rw [hkey, h1, h2]

end

/-- Claim C9: for all valid entity keys that are structurally equal but
differ only in the member ordering of object-typed segments,
`hashEntityKey` produces the same canonical string: object segments have
their member names sorted before serialization, while array order is
preserved.  (Well-formedness asks only that object member names be
duplicate-free, which is automatic for JS objects.) -/
theorem hashEntityKey_object_order (k1 k2 : List KeyPart)
    (h : StructEqList k1 k2) (w1 : wfList k1 = true)
    (w2 : wfList k2 = true) :
    hashEntityKey k1 = hashEntityKey k2 := by
  unfold hashEntityKey
  rw [structEqList_stringify k1 k2 h w1 w2]

/-- Witness for C9: the keys `[{b: 2, a: 1}]` and `[{a: 1, b: 2}]` hash
identically. -/
theorem hashEntityKey_object_order_witness :
    hashEntityKey [.obj [("b", .num 2), ("a", .num 1)]] =
      hashEntityKey [.obj [("a", .num 1), ("b", .num 2)]] := by
  refine hashEntityKey_object_order _ _ ?_ (by decide) (by decide)
  simp only [StructEqList, StructEq, StructEqFields]
  refine ⟨_, [], rfl, ?_, rfl⟩
  refine ⟨[("a", KeyPart.num 1), ("b", KeyPart.num 2)],
    [("b", KeyPart.num 2), ("a", KeyPart.num 1)], rfl, ?_, ?_⟩
  · exact List.Perm.swap _ _ _
  · exact ⟨_, _, rfl, rfl, rfl, _, _, rfl, rfl, rfl, rfl⟩

end RFS
